import Mathlib

/-
  Verification of the learning-path-optimizer repository.

  Shallow embedding of the python sources:
    utils/lesson_graph_builder.py, utils/lessons_topology.py,
    utils/data_loader.py,
    src/src/dataclasses/lesson.py, activity.py, learner.py,
    src/src/modules/cp/path_optimizer.py,
    src/models/cp/path_optimizer.py (duplicated variant),
    src/src/modules/clustering/path_clusterer.py.

  Machine integers are modelled as Int/Nat (python ints are unbounded),
  python dicts as association lists, exceptions as Option/Except results,
  and float performance scores as rationals.
-/

namespace LPO

/-- Lesson record, from src/src/dataclasses/lesson.py: id, name, min_mastery,
prerequisites (set of lesson ids, modelled as a list). -/
structure Lesson where
  id : String
  name : String
  min_mastery : Int
  prerequisites : List String
deriving Repr, DecidableEq

/-- Activity record, from src/src/dataclasses/activity.py: effectiveness maps
lesson ids to integer contributions (python dict, modelled as an association
list in insertion order). -/
structure Activity where
  id : String
  name : String
  duration : Int
  style : String
  effectiveness : List (String × Int)
  difficulty : String
  type : String
deriving Repr, DecidableEq

/-- Python d.get(key, 0) on an int-valued dict. -/
def dictGet (d : List (String × Int)) (k : String) : Int :=
  (d.lookup k).getD 0

/-- Python a.effectiveness.get(l_id, 0). -/
def effGet (a : Activity) (l : String) : Int :=
  dictGet a.effectiveness l

/-- Python dict assignment d[k] = v: replace the binding if the key is
present, otherwise append it. -/
def dictSet : List (String × Int) → String → Int → List (String × Int)
  | [], k, v => [(k, v)]
  | (k', v') :: rest, k, v =>
      if k' = k then (k, v) :: rest else (k', v') :: dictSet rest k v

/-- Sum of a list of integers (python builtin sum with start 0). -/
def sumInt (l : List Int) : Int := l.foldl (· + ·) 0

/-- Directed graph as held by networkx DiGraph: node list and edge list,
both in insertion order and duplicate-free. -/
structure Graph where
  nodes : List String
  edges : List (String × String)
deriving Repr, DecidableEq

/-- networkx G.add_node. -/
def Graph.addNode (G : Graph) (v : String) : Graph :=
  if v ∈ G.nodes then G else { G with nodes := G.nodes ++ [v] }

/-- networkx G.add_edge (also inserts missing endpoints). -/
def Graph.addEdge (G : Graph) (u v : String) : Graph :=
  let G1 := (G.addNode u).addNode v
  if (u, v) ∈ G1.edges then G1 else { G1 with edges := G1.edges ++ [(u, v)] }

/-- build_lesson_graph from utils/lesson_graph_builder.py: add each lesson id
as a node, then an edge prereq -> lesson.id for each prerequisite. -/
def build_lesson_graph (lessons : List Lesson) : Graph :=
  lessons.foldl
    (fun G lesson =>
      lesson.prerequisites.foldl (fun G p => G.addEdge p lesson.id)
        (G.addNode lesson.id))
    ⟨[], []⟩

/-- Nodes of n with in-degree zero: no remaining edge points at them. -/
def zeroInDegree (G : Graph) : List String :=
  G.nodes.filter (fun n => G.edges.all (fun e => e.2 ≠ n))

/-- networkx graph.remove_nodes_from: drop the nodes and all incident
edges. -/
def removeNodes (G : Graph) (vs : List String) : Graph :=
  { nodes := G.nodes.filter (fun n => n ∉ vs),
    edges := G.edges.filter (fun e => e.1 ∉ vs ∧ e.2 ∉ vs) }

/-- While-loop of compute_lesson_levels from utils/lessons_topology.py:
collect the zero-in-degree nodes, assign them the current level, remove them,
continue with the next level; stop when no zero-in-degree node remains (this
silently stops even when nodes are left, i.e. when the graph has a cycle).
The loop is given as structural recursion on a fuel argument; every round
with a nonempty level removes at least one node, so nodes.length + 1 rounds
always suffice and the fuel never cuts the loop short (see
levelsAux_fuel_irrelevant below). -/
def levelsAux : Nat → Graph → Nat → List (String × Nat)
  | 0, _, _ => []
  | fuel + 1, G, current =>
      match zeroInDegree G with
      | [] => []
      | x :: xs =>
          ((x :: xs).map (fun n => (n, current))) ++
            levelsAux fuel (removeNodes G (x :: xs)) (current + 1)

/-- compute_lesson_levels from utils/lessons_topology.py. -/
def compute_lesson_levels (G : Graph) : List (String × Nat) :=
  levelsAux (G.nodes.length + 1) G 0

/-- Acyclicity of a graph, phrased as the existence of a rank function
strictly increasing along every edge; on finite graphs this is equivalent to
the absence of directed cycles (a topological order is such a rank). -/
def Acyclic (G : Graph) : Prop :=
  ∃ r : String → Nat, ∀ e ∈ G.edges, r e.1 < r e.2

/-- Bounded path search: reachesWithin edges fuel p t holds when a directed
path of length at most fuel leads from p to t. -/
def reachesWithin (edges : List (String × String)) : Nat → String → String → Bool
  | 0, _, _ => false
  | fuel + 1, p, t =>
      edges.any (fun e => e.1 == p && (e.2 == t || reachesWithin edges fuel e.2 t))

/-- networkx nx.ancestors(G, t): all nodes with a directed path to t.
Paths never need more than G.nodes.length edges. -/
def ancestors (G : Graph) (t : String) : List String :=
  G.nodes.filter (fun p => reachesWithin G.edges G.nodes.length p t)

/-- Linear expressions over the CP-SAT variables created by
LearningPathOptimizer: one boolean per activity id, one integer mastery
variable per lesson id. -/
inductive CpExpr where
  | const (n : Int)
  | intVar (l : String)
  | boolVar (a : String)
  | add (e1 e2 : CpExpr)
  | mul (c : Int) (e : CpExpr)
deriving Repr, DecidableEq

/-- Value of an expression under an assignment: sb gives the boolean
variables (0/1 valued in linear expressions), si the integer variables. -/
def CpExpr.eval (sb : String → Bool) (si : String → Int) : CpExpr → Int
  | const n => n
  | intVar l => si l
  | boolVar a => if sb a then 1 else 0
  | add e1 e2 => e1.eval sb si + e2.eval sb si
  | mul c e => c * e.eval sb si

/-- Constraints posted by model.Add, optionally guarded by OnlyEnforceIf. -/
inductive CpConstraint where
  | eqC (lhs rhs : CpExpr)
  | geC (lhs rhs : CpExpr)
  | onlyEnforceIf (base : CpConstraint) (guard : String)
deriving Repr, DecidableEq

/-- A constraint holds under an assignment; a guarded constraint is only
enforced when its guard boolean is true. -/
def CpConstraint.holds (sb : String → Bool) (si : String → Int) :
    CpConstraint → Bool
  | eqC lhs rhs => lhs.eval sb si == rhs.eval sb si
  | geC lhs rhs => decide (lhs.eval sb si ≥ rhs.eval sb si)
  | onlyEnforceIf base guard => !sb guard || base.holds sb si

/-- Python builtin sum over a list of linear expressions (start value 0). -/
def sumExpr (es : List CpExpr) : CpExpr :=
  es.foldl .add (.const 0)

namespace PathOptimizer

/-- Candidate activities kept by LearningPathOptimizer.__init__: the input
activities minus the learner already-completed activity ids. -/
def candidates (activities : List Activity) (completed : List String) :
    List Activity :=
  activities.filter (fun a => a.id ∉ completed)

/-- Upper bound computed in _build_variables of
src/src/modules/cp/path_optimizer.py: current mastery plus the summed
effectiveness of every candidate activity for the lesson. -/
def max_possible_mastery (cur : List (String × Int)) (acts : List Activity)
    (l : String) : Int :=
  dictGet cur l + sumInt (acts.map (fun a => effGet a l))

/-- _build_variables of src/src/modules/cp/path_optimizer.py: the integer
mastery variable of each lesson, as (lesson id, lower bound, upper bound). -/
def build_variables (lessons : List Lesson) (cur : List (String × Int))
    (acts : List Activity) : List (String × Int × Int) :=
  lessons.map (fun l => (l.id, dictGet cur l.id, max_possible_mastery cur acts l.id))

/-- self.lessons[pre_id].min_mastery lookup used by _add_constraints. -/
def minMasteryOf (lessons : List Lesson) (l_id : String) : Int :=
  ((lessons.find? (fun l => l.id == l_id)).map Lesson.min_mastery).getD 0

/-- First loop of _add_constraints: for every lesson, the accumulation
equality mastery[l] == current + sum of effectiveness[a][l] * x[a], and the
threshold inequality mastery[l] >= lesson.min_mastery. -/
def accumulation_constraints (lessons : List Lesson) (cur : List (String × Int))
    (acts : List Activity) : List CpConstraint :=
  lessons.flatMap (fun l =>
    [CpConstraint.eqC (.intVar l.id)
        (.add (.const (dictGet cur l.id))
          (sumExpr (acts.map (fun a => .mul (effGet a l.id) (.boolVar a.id))))),
     CpConstraint.geC (.intVar l.id) (.const l.min_mastery)])

/-- Second loop of _add_constraints: for every candidate activity, every
lesson it covers and every graph ancestor of that lesson, the guarded
constraint mastery[pre] >= min_mastery[pre] enforced only if x[a]. -/
def gating_constraints (lessons : List Lesson) (G : Graph)
    (acts : List Activity) : List CpConstraint :=
  acts.flatMap (fun a =>
    (a.effectiveness.map Prod.fst).flatMap (fun l_id =>
      (ancestors G l_id).map (fun pre =>
        CpConstraint.onlyEnforceIf
          (.geC (.intVar pre) (.const (minMasteryOf lessons pre))) a.id)))

/-- _add_constraints of src/src/modules/cp/path_optimizer.py. -/
def add_constraints (lessons : List Lesson) (cur : List (String × Int))
    (G : Graph) (acts : List Activity) : List CpConstraint :=
  accumulation_constraints lessons cur acts ++ gating_constraints lessons G acts

/-- Extraction step at the end of run(): the activities whose boolean is 1
in the solver assignment. -/
def run_selected (acts : List Activity) (sb : String → Bool) : List Activity :=
  acts.filter (fun a => sb a.id)

/-- CP-SAT solver statuses relevant to run(). -/
inductive CpStatus where
  | optimal
  | feasible
  | infeasible
  | unknown
  | modelInvalid
deriving Repr, DecidableEq

/-- Outcome of run() in src/src/modules/cp/path_optimizer.py: on OPTIMAL or
FEASIBLE the selected activities are extracted and returned; any other
status raises ValueError with one fixed message. -/
inductive RunOutcome where
  | ok (selected : List Activity)
  | valueError (msg : String)
deriving Repr, DecidableEq

/-- Status handling of run(): statuses outside (OPTIMAL, FEASIBLE) all raise
the same ValueError; otherwise the x-selected activities are returned. -/
def run_classify (acts : List Activity) (sb : String → Bool)
    (status : CpStatus) : RunOutcome :=
  if status = .optimal ∨ status = .feasible then
    .ok (run_selected acts sb)
  else
    .valueError "Learning complete or no feasible activities remain."

end PathOptimizer

namespace ModelsVariant

/-- _build_variables of the duplicated optimizer in
src/models/cp/path_optimizer.py: same lower bound, but a fixed upper bound
of 100 for every mastery variable. -/
def build_variables (lessons : List Lesson) (cur : List (String × Int)) :
    List (String × Int × Int) :=
  lessons.map (fun l => (l.id, dictGet cur l.id, (100 : Int)))

end ModelsVariant

/-- Python int() applied to a nonnegative product of an int and a float
score: truncation toward zero, on the rational model of the score. -/
def pyInt (q : ℚ) : Int :=
  q.num.tdiv (q.den : Int)

/-- ActivityPerformance of src/src/dataclasses/learner.py; the float score
is modelled as a rational. -/
structure ActivityPerformance where
  activity_id : String
  performance : ℚ
deriving Repr, DecidableEq

/-- SprintLog of src/src/dataclasses/learner.py. The wall-clock timestamp
field is outside the model and omitted. -/
structure SprintLog where
  sprint_id : Nat
  activities : List String
  performances : List (String × ℚ)
  mastery_after : List (String × Int)
deriving Repr, DecidableEq

/-- LearnerModel state of src/src/dataclasses/learner.py. current_mastery is
a defaultdict(int), modelled as an association list read through dictGet
(default 0); the three preference maps default to 1/2. -/
structure LearnerModel where
  target_lessons : List String
  sprint_history : List SprintLog
  current_mastery : List (String × Int)
  style_preferences : List (String × ℚ)
  activity_type_preferences : List (String × ℚ)
  difficulty_preferences : List (String × ℚ)
  preference_ema_alpha : ℚ
  next_sprint_id : Nat
deriving Repr, DecidableEq

/-- LearnerModel.__init__ with a given target lesson set. -/
def LearnerModel.init (target_lessons : List String) : LearnerModel :=
  { target_lessons := target_lessons
    sprint_history := []
    current_mastery := []
    style_preferences := []
    activity_type_preferences := []
    difficulty_preferences := []
    preference_ema_alpha := 3 / 10
    next_sprint_id := 1 }

/-- completed_activity_ids property: all activity ids over the recorded
sprint history. -/
def LearnerModel.completed_activity_ids (lm : LearnerModel) : List String :=
  lm.sprint_history.flatMap SprintLog.activities

/-- Inner loop of LearnerModel.record_sprint for one activity and one
effectiveness entry: current_mastery[lesson] = min(100,
current_mastery.get(lesson, 0) + int(effectiveness * performance)). -/
def updatePair (perf : ℚ) (m : List (String × Int)) (le : String × Int) :
    List (String × Int) :=
  dictSet m le.1 (min 100 (dictGet m le.1 + pyInt (le.2 * perf)))

/-- Outer loop of LearnerModel.record_sprint over the performance list:
look each activity up in the activity map (a missing id is a KeyError,
modelled as none) and fold its effectiveness entries into the mastery
dict. -/
def applyPerfs (acts : List Activity) (m : List (String × Int)) :
    List ActivityPerformance → Option (List (String × Int))
  | [] => some m
  | p :: ps =>
      match acts.find? (fun a => a.id == p.activity_id) with
      | none => none
      | some a => applyPerfs acts (a.effectiveness.foldl (updatePair p.performance) m) ps

/-- LearnerModel.record_sprint of src/src/dataclasses/learner.py: update
mastery from the performances, append one SprintLog carrying a copy of the
updated mastery, and advance next_sprint_id. -/
def record_sprint (lm : LearnerModel) (performances : List ActivityPerformance)
    (acts : List Activity) : Option LearnerModel :=
  (applyPerfs acts lm.current_mastery performances).map (fun m =>
    { lm with
        current_mastery := m
        sprint_history := lm.sprint_history ++
          [{ sprint_id := lm.next_sprint_id
             activities := performances.map ActivityPerformance.activity_id
             performances := performances.map (fun p => (p.activity_id, p.performance))
             mastery_after := m }]
        next_sprint_id := lm.next_sprint_id + 1 })

/-- load_data of utils/data_loader.py, on already-parsed records: key the
lesson records by id into a dict and keep the activity records as a list.
No validation of any kind is performed. -/
def load_data (lessonRecords : List Lesson) (activityRecords : List Activity) :
    List (String × Lesson) × List Activity :=
  (lessonRecords.map (fun l => (l.id, l)), activityRecords)

/-- Supported distance metrics of SprintBuilder in
src/src/modules/clustering/path_clusterer.py. -/
inductive ClusterDistance where
  | euclidean
  | jaccard
deriving Repr, DecidableEq

/-- The external clustering backend behind the sklearn calls (KMeans for
euclidean, AgglomerativeClustering for jaccard): given the encoded vectors
and a cluster count k it returns one label per vector. -/
def Labeler : Type :=
  List (List Nat) → Nat → List Nat

/-- SprintBuilder configuration and data, from
src/src/modules/clustering/path_clusterer.py. -/
structure SprintBuilder where
  lessons : List Lesson
  activities : List Activity
  max_sprint_size : Nat
  use_clustering : Bool
  cluster_distance : ClusterDistance
deriving Repr, DecidableEq

namespace SprintBuilder

/-- self.all_lesson_ids = sorted(lessons.keys()). -/
def all_lesson_ids (b : SprintBuilder) : List String :=
  List.insertionSort (· ≤ ·) (b.lessons.map Lesson.id)

/-- self.lesson_levels, computed through the prerequisite graph. -/
def lesson_levels (b : SprintBuilder) : List (String × Nat) :=
  compute_lesson_levels (build_lesson_graph b.lessons)

/-- _encode_activity: binary coverage vector over the sorted lesson ids. -/
def encode_activity (b : SprintBuilder) (a : Activity) : List Nat :=
  b.all_lesson_ids.map (fun l => if (a.effectiveness.lookup l).isSome then 1 else 0)

/-- Cluster count k = max(1, min(n // 2, ceil(n / max_sprint_size))). -/
def clusterK (n max_sprint_size : Nat) : Nat :=
  max 1 (min (n / 2) ((n + max_sprint_size - 1) / max_sprint_size))

/-- _cluster_activities: groups of at most max_sprint_size activities are
returned whole; larger groups are encoded, labelled by the external
clustering backend, and scattered into k clusters in input order. A label
outside range(k) would be an IndexError on the clusters list, modelled as
none. -/
def cluster_activities (labeler : Labeler) (b : SprintBuilder)
    (activities : List Activity) : Option (List (List Activity)) :=
  if activities.length ≤ b.max_sprint_size then some [activities]
  else
    let encoded := activities.map (b.encode_activity)
    let k := clusterK activities.length b.max_sprint_size
    let labels := labeler encoded k
    if labels.all (fun lab => lab < k) then
      some ((activities.zip labels).foldl
        (fun cs al => cs.set al.2 (cs.getD al.2 [] ++ [al.1]))
        (List.replicate k []))
    else none

/-- Loop body of the sequential chunking branch of build_sprints: slice off
the next max_sprint_size activities until none remain. Structural recursion
on a fuel argument; every round drops at least one element when size is
nonzero, so fuel equal to the list length never cuts the loop short. -/
def chunkAux (size : Nat) : Nat → List Activity → List (List Activity)
  | _, [] => []
  | 0, _ :: _ => []
  | fuel + 1, a :: rest =>
      (a :: rest).take size :: chunkAux size fuel ((a :: rest).drop size)

/-- Sequential chunking branch of build_sprints: for i in range(0, n,
max_sprint_size) append activities[i : i + max_sprint_size]. Python raises
ValueError on a zero step; that case is returned as the empty list here and
excluded by hypothesis in every theorem below. -/
def chunkList (size : Nat) (l : List Activity) : List (List Activity) :=
  if size = 0 then [] else chunkAux size l.length l

/-- Depth of an activity: max over the levels of the lessons it covers; a
lesson missing from the level dict is a KeyError, modelled as none. -/
def activityDepth (levels : List (String × Nat)) (a : Activity) : Option Nat :=
  (a.effectiveness.mapM (fun e => levels.lookup e.1)).map (fun ls => ls.foldl max 0)

/-- Pair each activity with its depth, or fail on the first KeyError. -/
def depthsOf (levels : List (String × Nat)) :
    List Activity → Option (List (Activity × Nat))
  | [] => some []
  | a :: rest =>
      match activityDepth levels a with
      | none => none
      | some d => (depthsOf levels rest).map (fun tail => (a, d) :: tail)

/-- Keys of the level_groups dict in ascending order: sorted(level_groups). -/
def sortedDepths (ds : List Nat) : List Nat :=
  (List.range (ds.foldl max 0 + 1)).filter (fun d => ds.contains d)

/-- Per-group body of the build_sprints loop: cluster when clustering is
enabled and the group exceeds max_sprint_size, else chunk sequentially. -/
def groupSprints (labeler : Labeler) (b : SprintBuilder)
    (g : List Activity) : Option (List (List Activity)) :=
  if b.use_clustering ∧ g.length > b.max_sprint_size then
    cluster_activities labeler b g
  else
    some (chunkList b.max_sprint_size g)

/-- Loop of build_sprints over the depth groups in ascending depth order. -/
def buildLoop (labeler : Labeler) (b : SprintBuilder) :
    List (List Activity) → Option (List (List Activity))
  | [] => some []
  | g :: gs => do
      let first ← groupSprints labeler b g
      let rest ← buildLoop labeler b gs
      pure (first ++ rest)

/-- build_sprints of src/src/modules/clustering/path_clusterer.py: drop
activities with empty effectiveness, group the rest by depth, process the
groups in ascending depth order. -/
def build_sprints (labeler : Labeler) (b : SprintBuilder) :
    Option (List (List Activity)) := do
  let acts := b.activities.filter (fun a => !a.effectiveness.isEmpty)
  let leveled ← depthsOf b.lesson_levels acts
  let groups := (sortedDepths (leveled.map Prod.snd)).map
    (fun d => (leveled.filter (fun ad => ad.2 == d)).map Prod.fst)
  buildLoop labeler b groups

end SprintBuilder

/-- Modelled from the spec: the UPDATING formula written with a true floor,
mastery[lesson] = min(100, mastery[lesson] + floor(effectiveness * performance)),
for one (activity, lesson) pair. Used only to compare record_sprint against
the spec wording. -/
def specUpdatePair (perf : ℚ) (m : List (String × Int)) (le : String × Int) :
    List (String × Int) :=
  dictSet m le.1 (min 100 (dictGet m le.1 + ⌊(le.2 : ℚ) * perf⌋))

/-- Modelled from the spec: the UPDATING formula iterated over every
(activity, lesson) pair of the active sprint in order. -/
def specApplyPerfs (acts : List Activity) (m : List (String × Int)) :
    List ActivityPerformance → Option (List (String × Int))
  | [] => some m
  | p :: ps =>
      match acts.find? (fun a => a.id == p.activity_id) with
      | none => none
      | some a => specApplyPerfs acts (a.effectiveness.foldl (specUpdatePair p.performance) m) ps

/-
  Concrete fixtures used by witnesses and counterexamples.
-/

/-- A standalone lesson with threshold 50 and no prerequisites. -/
def lessonL1 : Lesson :=
  { id := "L1", name := "Lesson 1", min_mastery := 50, prerequisites := [] }

/-- A lesson depending on L1. -/
def lessonL2 : Lesson :=
  { id := "L2", name := "Lesson 2", min_mastery := 50, prerequisites := ["L1"] }

/-- An activity contributing 60 mastery to L1. -/
def actA1 : Activity :=
  { id := "A1", name := "Act 1", duration := 30, style := "visual",
    effectiveness := [("L1", 60)], difficulty := "easy", type := "video" }

/-- An activity whose effectiveness references a lesson id that no lesson
record defines. -/
def ghostActivity : Activity :=
  { id := "A9", name := "Ghost", duration := 10, style := "visual",
    effectiveness := [("ghost", 10)], difficulty := "easy", type := "video" }

/-- Two lessons forming a prerequisite cycle: each is a prerequisite of the
other. -/
def cyclicLessons : List Lesson :=
  [{ id := "L_A", name := "A", min_mastery := 50, prerequisites := ["L_B"] },
   { id := "L_B", name := "B", min_mastery := 50, prerequisites := ["L_A"] }]

/-- A fresh learner targeting L1. -/
def lmFix : LearnerModel := LearnerModel.init ["L1"]

/-- A performance of one half on activity A1. -/
def perfFix : ActivityPerformance := { activity_id := "A1", performance := 1/2 }

/-- The sprint log produced by recording perfFix on a fresh learner. -/
def logFix : SprintLog :=
  { sprint_id := 1
    activities := ["A1"]
    performances := [("A1", 1/2)]
    mastery_after := [("L1", 30)] }

/-- The learner state after recording perfFix on a fresh learner. -/
def lmAfterFix : LearnerModel :=
  { lmFix with
      current_mastery := [("L1", 30)]
      sprint_history := [logFix]
      next_sprint_id := 2 }

/-- One of five same-depth activities covering only L1. -/
def actB (i : String) : Activity :=
  { id := i, name := i, duration := 10, style := "visual",
    effectiveness := [("L1", 10)], difficulty := "easy", type := "video" }

/-- Five same-depth activities, each covering only L1, in input order. -/
def fiveActs : List Activity :=
  [actB "B1", actB "B2", actB "B3", actB "B4", actB "B5"]

/-- The scenario builder: five same-depth activities, max_sprint_size 2,
clustering disabled. -/
def sprintB7 : SprintBuilder :=
  { lessons := [lessonL1], activities := fiveActs, max_sprint_size := 2,
    use_clustering := false, cluster_distance := ClusterDistance.jaccard }

/-- The same data with clustering enabled. -/
def sprintB6 : SprintBuilder :=
  { lessons := [lessonL1], activities := fiveActs, max_sprint_size := 2,
    use_clustering := true, cluster_distance := ClusterDistance.jaccard }

/-- A degenerate but contract-abiding clustering backend putting every
vector in cluster 0. -/
def labeler0 : Labeler := fun vecs _ => vecs.map (fun _ => 0)

/-
  Theorems: general lemmas first, then one theorem per claim (with its
  witness or counterexample).
-/

theorem zeroInDegree_subset {G : Graph} {x : String}
    (hx : x ∈ zeroInDegree G) : x ∈ G.nodes :=
  List.mem_of_mem_filter hx

theorem removeNodes_length_lt (G : Graph) (vs : List String)
    (x : String) (hx : x ∈ G.nodes) (hvs : x ∈ vs) :
    (removeNodes G vs).nodes.length < G.nodes.length := by
  apply List.length_filter_lt_length_iff_exists.mpr
  exact ⟨x, hx, by simp [hvs]⟩

/-- Any fuel beyond the remaining node count computes the same level list:
the fuel parameter never cuts the peeling loop short. -/
theorem levelsAux_fuel_irrelevant :
    ∀ (n f1 f2 : Nat) (G : Graph) (c : Nat), G.nodes.length ≤ n →
      n < f1 → n < f2 → levelsAux f1 G c = levelsAux f2 G c := by
  intro n
  induction n with
  | zero =>
      intro f1 f2 G c hn h1 h2
      obtain ⟨a1, rfl⟩ := Nat.exists_eq_add_of_lt h1
      obtain ⟨a2, rfl⟩ := Nat.exists_eq_add_of_lt h2
      simp only [Nat.zero_add] at *
      rw [levelsAux, levelsAux]
      have hz : zeroInDegree G = [] := by
        have := Nat.le_zero.mp hn
        cases hG : zeroInDegree G with
        | nil => rfl
        | cons x xs =>
            have hx := zeroInDegree_subset (hG ▸ List.mem_cons_self x xs)
            rw [List.length_eq_zero] at this
            simp [this] at hx
      rw [hz]
  | succ n ih =>
      intro f1 f2 G c hn h1 h2
      obtain ⟨a1, rfl⟩ := Nat.exists_eq_add_of_lt h1
      obtain ⟨a2, rfl⟩ := Nat.exists_eq_add_of_lt h2
      rw [levelsAux, levelsAux]
      cases hG : zeroInDegree G with
      | nil => rfl
      | cons x xs =>
          have hlt : (removeNodes G (x :: xs)).nodes.length < G.nodes.length :=
            removeNodes_length_lt G (x :: xs) x
              (zeroInDegree_subset (hG ▸ List.mem_cons_self x xs))
              (List.mem_cons_self x xs)
          have hrec : (removeNodes G (x :: xs)).nodes.length ≤ n := by omega
          dsimp only
          rw [ih (n + 1 + a1) (n + 1 + a2) _ _ hrec (by omega) (by omega)]

theorem lookup_append_of_none {β : Type} {l1 l2 : List (String × β)}
    {k : String} (h : l1.lookup k = none) :
    (l1 ++ l2).lookup k = l2.lookup k := by
  induction l1 with
  | nil => rfl
  | cons e es ih =>
      obtain ⟨a, b⟩ := e
      rw [List.cons_append, List.lookup_cons]
      rw [List.lookup_cons] at h
      cases hk : k == a with
      | true => simp [hk] at h
      | false => simp only [hk] at h ⊢; exact ih h

theorem lookup_map_pair_none {lv : List String} {x : String} {c : Nat}
    (hx : x ∉ lv) :
    (lv.map (fun n => (n, c))).lookup x = none := by
  induction lv with
  | nil => rfl
  | cons y ys ih =>
      simp only [List.map_cons, List.lookup_cons]
      have hxy : x ≠ y := fun h => hx (h ▸ List.mem_cons_self y ys)
      have : (x == y) = false := beq_false_of_ne hxy
      simp only [this]
      exact ih (fun h => hx (List.mem_cons_of_mem y h))

theorem not_mem_zeroInDegree_of_in_edge {G : Graph} {x p : String}
    (hedge : (p, x) ∈ G.edges) : x ∉ zeroInDegree G := by
  intro hz
  have h2 := (List.mem_filter.mp hz).2
  simp only [List.all_eq_true, decide_eq_true_eq] at h2
  exact h2 (p, x) hedge rfl

/-- Nodes of a set C in which every member has an incoming edge from C (for
instance, the vertex set of a cycle) are never assigned a level: the peeling
loop just stops and leaves them out of the result, without any error. -/
theorem levelsAux_cycle_unassigned (C : List String) :
    ∀ (fuel : Nat) (G : Graph) (c : Nat),
      (∀ x ∈ C, ∃ p ∈ C, (p, x) ∈ G.edges) →
      ∀ x ∈ C, (levelsAux fuel G c).lookup x = none := by
  intro fuel
  induction fuel with
  | zero => intro G c _ x _; rfl
  | succ fuel ih =>
      intro G c hcyc x hx
      rw [levelsAux]
      cases hG : zeroInDegree G with
      | nil => rfl
      | cons y ys =>
          have hnot : ∀ z ∈ C, z ∉ (y :: ys) := by
            intro z hz hmem
            obtain ⟨p, _, hedge⟩ := hcyc z hz
            exact not_mem_zeroInDegree_of_in_edge hedge (hG ▸ hmem)
          dsimp only
          rw [lookup_append_of_none (lookup_map_pair_none (hnot x hx))]
          refine ih (removeNodes G (y :: ys)) (c + 1) ?_ x hx
          intro z hz
          obtain ⟨p, hp, hedge⟩ := hcyc z hz
          refine ⟨p, hp, ?_⟩
          simp only [removeNodes, List.mem_filter, decide_eq_true_eq]
          exact ⟨hedge, by simp [hnot p hp, hnot z hz]⟩

/-- C2 (amended): on an input whose prerequisite relation has a cycle,
build_lesson_graph succeeds and compute_lesson_levels returns normally with
a level map that omits every node of the cycle; no CycleError type exists in
the code and nothing stops the scheduler. Formally: for any set C of nodes
each of which has a prerequisite edge coming from inside C, every member of
C is missing from the computed level map. -/
theorem C2_cycle_nodes_silently_skipped (lessons : List Lesson)
    (C : List String)
    (hcyc : ∀ x ∈ C, ∃ p ∈ C, (p, x) ∈ (build_lesson_graph lessons).edges) :
    ∀ x ∈ C, (compute_lesson_levels (build_lesson_graph lessons)).lookup x = none := by
  intro x hx
  exact levelsAux_cycle_unassigned C _ (build_lesson_graph lessons) 0 hcyc x hx

/-- C2 (counterexample to the claim as stated): on a two-lesson prerequisite
cycle, building the graph and computing levels both return normally; the
level map comes back empty, silently skipping both cyclic nodes, instead of
failing with a CycleError. -/
theorem C2_counterexample_no_cycle_error :
    (build_lesson_graph cyclicLessons).nodes = ["L_A", "L_B"] ∧
    compute_lesson_levels (build_lesson_graph cyclicLessons) = [] := by
  decide

/-- C2 witness: the amended theorem applied to the concrete two-lesson
cycle. -/
theorem C2_witness :
    (compute_lesson_levels (build_lesson_graph cyclicLessons)).lookup "L_A" = none :=
  C2_cycle_nodes_silently_skipped cyclicLessons ["L_A", "L_B"] (by decide)
    "L_A" (by decide)

/-- C3 (amended): the batch optimizer of src/src/modules/cp creates every
mastery variable with lower bound current_mastery and the tight upper bound
current_mastery plus the summed effectiveness of all candidates, while the
duplicated batch optimizer of src/models/cp creates the same variable with a
fixed upper bound of 100. -/
theorem C3_mastery_variable_bounds (lessons : List Lesson)
    (cur : List (String × Int)) (acts : List Activity)
    (l : Lesson) (hl : l ∈ lessons) :
    (l.id, dictGet cur l.id,
        dictGet cur l.id + sumInt (acts.map (fun a => effGet a l.id)))
      ∈ PathOptimizer.build_variables lessons cur acts ∧
    (l.id, dictGet cur l.id, (100 : Int)) ∈ ModelsVariant.build_variables lessons cur := by
  constructor
  · exact List.mem_map.mpr ⟨l, hl, rfl⟩
  · exact List.mem_map.mpr ⟨l, hl, rfl⟩

/-- C3 witness: the bound theorem applied to a one-lesson, one-activity
instance. -/
theorem C3_witness :
    ("L1", (0 : Int), (60 : Int))
      ∈ PathOptimizer.build_variables [lessonL1] [] [actA1] ∧
    ("L1", (0 : Int), (100 : Int)) ∈ ModelsVariant.build_variables [lessonL1] [] :=
  C3_mastery_variable_bounds [lessonL1] [] [actA1] lessonL1 (by decide)

/-- C3 (counterexample to the claim as stated): on a one-lesson instance
whose tight bound is 60, the src/models/cp builder creates the mastery
variable with upper bound 100, not the tight bound. -/
theorem C3_counterexample_fixed_100 :
    ModelsVariant.build_variables [lessonL1] [] = [("L1", 0, 100)] ∧
    PathOptimizer.max_possible_mastery [] [actA1] "L1" = 60 ∧
    (100 : Int) ≠ 60 := by
  decide

/-- C4 (amended): run() does not distinguish solver failure statuses: every
status outside OPTIMAL and FEASIBLE, in particular both INFEASIBLE and
UNKNOWN, raises the one ValueError with the same message; no separate
retryable timeout error exists. -/
theorem C4_uniform_failure (acts : List Activity) (sb : String → Bool)
    (status : PathOptimizer.CpStatus)
    (h1 : status ≠ PathOptimizer.CpStatus.optimal)
    (h2 : status ≠ PathOptimizer.CpStatus.feasible) :
    PathOptimizer.run_classify acts sb status =
      PathOptimizer.RunOutcome.valueError
        "Learning complete or no feasible activities remain." := by
  unfold PathOptimizer.run_classify
  rw [if_neg]
  rintro (h | h)
  · exact h1 h
  · exact h2 h

/-- C4 witness: the uniform-failure theorem applied at status INFEASIBLE. -/
theorem C4_witness :
    PathOptimizer.run_classify [] (fun _ => false) PathOptimizer.CpStatus.infeasible =
      PathOptimizer.RunOutcome.valueError
        "Learning complete or no feasible activities remain." :=
  C4_uniform_failure [] (fun _ => false) PathOptimizer.CpStatus.infeasible
    (by decide) (by decide)

/-- C4 (counterexample to the claim as stated): the INFEASIBLE and UNKNOWN
statuses produce the very same outcome, a single ValueError, rather than two
distinct error types. -/
theorem C4_counterexample_same_error :
    PathOptimizer.run_classify [] (fun _ => false) PathOptimizer.CpStatus.infeasible =
      PathOptimizer.run_classify [] (fun _ => false) PathOptimizer.CpStatus.unknown ∧
    PathOptimizer.run_classify [] (fun _ => false) PathOptimizer.CpStatus.unknown =
      PathOptimizer.RunOutcome.valueError
        "Learning complete or no feasible activities remain." := by
  decide

/-- C9 (amended): load_data performs no cross-id validation at all: a record
whose effectiveness references a lesson id absent from the lesson records is
loaded unchanged into the returned activity list, and the returned lesson
dict is keyed exactly by the input lesson ids; no DataValidationError type
exists in the code. -/
theorem C9_no_cross_id_validation (lrecords : List Lesson)
    (arecords : List Activity) (a : Activity) (e : String × Int)
    (ha : a ∈ arecords) (he : e ∈ a.effectiveness)
    (hghost : e.1 ∉ lrecords.map Lesson.id) :
    a ∈ (load_data lrecords arecords).2 ∧
    (load_data lrecords arecords).1.map Prod.fst = lrecords.map Lesson.id := by
  refine ⟨ha, ?_⟩
  simp [load_data]

/-- C9 witness: the no-validation theorem applied to a record referencing
the undefined lesson id ghost. -/
theorem C9_witness :
    ghostActivity ∈ (load_data [lessonL1] [ghostActivity]).2 ∧
    (load_data [lessonL1] [ghostActivity]).1.map Prod.fst = [lessonL1].map Lesson.id :=
  C9_no_cross_id_validation [lessonL1] [ghostActivity] ghostActivity
    ("ghost", 10) (by decide) (by decide) (by decide)

/-- C9 (counterexample to the claim as stated): loading a lesson list not
containing the id ghost together with an activity referencing ghost returns
both records untouched instead of failing with a DataValidationError. -/
theorem C9_counterexample_accepts_unknown_id :
    load_data [lessonL1] [ghostActivity] = ([("L1", lessonL1)], [ghostActivity]) ∧
    "ghost" ∉ [lessonL1].map Lesson.id := by
  decide

theorem sumInt_eq_sum (l : List Int) : sumInt l = l.sum :=
  List.sum_eq_foldl.symm

theorem sumInt_cons (x : Int) (l : List Int) : sumInt (x :: l) = x + sumInt l := by
  rw [sumInt_eq_sum, sumInt_eq_sum, List.sum_cons]

theorem eval_foldl_add (sb : String → Bool) (si : String → Int) :
    ∀ (es : List CpExpr) (acc : CpExpr),
      (es.foldl CpExpr.add acc).eval sb si =
        acc.eval sb si + sumInt (es.map (fun e => e.eval sb si)) := by
  intro es
  induction es with
  | nil => intro acc; simp [sumInt, CpExpr.eval]
  | cons e es ih =>
      intro acc
      rw [List.foldl_cons, ih, List.map_cons, sumInt_cons]
      simp [CpExpr.eval]
      ring

theorem eval_sumExpr (sb : String → Bool) (si : String → Int) (es : List CpExpr) :
    (sumExpr es).eval sb si = sumInt (es.map (fun e => e.eval sb si)) := by
  have h := eval_foldl_add sb si es (.const 0)
  simpa [sumExpr, CpExpr.eval] using h

theorem sumInt_map_ite {α : Type} (f : α → Int) (p : α → Bool) (l : List α) :
    sumInt (l.map (fun a => if p a then f a else 0)) =
      sumInt ((l.filter p).map f) := by
  induction l with
  | nil => rfl
  | cons a l ih =>
      cases hp : p a with
      | true =>
          rw [List.map_cons, sumInt_cons, List.filter_cons_of_pos hp,
            List.map_cons, sumInt_cons, hp, if_pos rfl, ih]
      | false =>
          rw [List.map_cons, sumInt_cons, List.filter_cons_of_neg (by simp [hp]),
            hp, if_neg Bool.false_ne_true, ih]
          ring

/-- C1: whenever an assignment satisfies every constraint posted by
_add_constraints, the mastery variable of every lesson equals the current
mastery plus the summed effectiveness of the activities extracted by run()
(the candidates whose boolean is set), and reaches at least the lesson
minimum mastery. -/
theorem C1_solution_accumulates_and_meets_thresholds (lessons : List Lesson)
    (cur : List (String × Int)) (G : Graph) (acts : List Activity)
    (sb : String → Bool) (si : String → Int)
    (hsat : ∀ c ∈ PathOptimizer.add_constraints lessons cur G acts,
      c.holds sb si = true)
    (l : Lesson) (hl : l ∈ lessons) :
    si l.id = dictGet cur l.id +
      sumInt ((PathOptimizer.run_selected acts sb).map (fun a => effGet a l.id)) ∧
    l.min_mastery ≤ si l.id := by
  have hmemEq : CpConstraint.eqC (.intVar l.id)
      (.add (.const (dictGet cur l.id))
        (sumExpr (acts.map (fun a => .mul (effGet a l.id) (.boolVar a.id)))))
      ∈ PathOptimizer.add_constraints lessons cur G acts := by
    apply List.mem_append.mpr
    exact Or.inl (List.mem_flatMap.mpr ⟨l, hl, List.mem_cons_self _ _⟩)
  have hmemGe : CpConstraint.geC (.intVar l.id) (.const l.min_mastery)
      ∈ PathOptimizer.add_constraints lessons cur G acts := by
    apply List.mem_append.mpr
    exact Or.inl (List.mem_flatMap.mpr
      ⟨l, hl, List.mem_cons_of_mem _ (List.mem_cons_self _ _)⟩)
  have h1 := hsat _ hmemEq
  have h2 := hsat _ hmemGe
  simp only [CpConstraint.holds, beq_iff_eq, decide_eq_true_eq, ge_iff_le,
    CpExpr.eval] at h1 h2
  refine ⟨?_, h2⟩
  rw [h1, eval_sumExpr]
  congr 1
  rw [List.map_map]
  have : (fun a => CpExpr.eval sb si (.mul (effGet a l.id) (.boolVar a.id)))
      = (fun a : Activity => if sb a.id then effGet a l.id else 0) := by
    funext a
    cases h : sb a.id <;> simp [CpExpr.eval, h]
  rw [show ((fun e => CpExpr.eval sb si e) ∘
      fun a : Activity => CpExpr.mul (effGet a l.id) (.boolVar a.id))
      = (fun a : Activity => CpExpr.eval sb si
          (.mul (effGet a l.id) (.boolVar a.id))) from rfl, this,
    sumInt_map_ite]
  rfl

/-- C1 witness: the theorem applied to a one-lesson, one-activity instance
and the assignment selecting the activity with mastery value 60. -/
theorem C1_witness :
    (fun _ => (60 : Int)) "L1" = dictGet [] "L1" +
      sumInt ((PathOptimizer.run_selected [actA1] (fun _ => true)).map
        (fun a => effGet a "L1")) ∧
    lessonL1.min_mastery ≤ (fun _ => (60 : Int)) "L1" := by
  have h := C1_solution_accumulates_and_meets_thresholds [lessonL1] []
    (build_lesson_graph [lessonL1]) [actA1] (fun _ => true) (fun _ => (60 : Int))
    (by decide) lessonL1 (by decide)
  exact h

theorem dictGet_dictSet : ∀ (m : List (String × Int)) (k : String) (v : Int)
    (x : String),
    dictGet (dictSet m k v) x = if x = k then v else dictGet m x := by
  intro m
  induction m with
  | nil =>
      intro k v x
      by_cases hx : x = k
      · simp [dictSet, dictGet, List.lookup_cons, hx]
      · simp [dictSet, dictGet, List.lookup_cons, beq_false_of_ne hx, hx]
  | cons e es ih =>
      intro k v x
      obtain ⟨a, b⟩ := e
      by_cases hak : a = k
      · subst hak
        by_cases hx : x = a
        · subst hx
          simp [dictSet, dictGet, List.lookup_cons]
        · simp [dictSet, dictGet, List.lookup_cons, beq_false_of_ne hx, hx]
      · by_cases hx : x = a
        · have hxk : ¬(x = k) := by rw [hx]; exact hak
          simp [dictSet, hak, dictGet, List.lookup_cons, hx, hxk]
        · have hih := ih k v x
          simp only [dictSet, if_neg hak, dictGet, List.lookup_cons,
            beq_false_of_ne hx] at hih ⊢
          exact hih

theorem pyInt_eq_floor {q : ℚ} (hq : 0 ≤ q) : pyInt q = ⌊q⌋ := by
  rw [pyInt, Rat.floor_def]
  exact Int.tdiv_eq_ediv (Rat.num_nonneg.mpr hq) (Int.natCast_nonneg q.den)

theorem pyInt_nonneg {q : ℚ} (hq : 0 ≤ q) : 0 ≤ pyInt q := by
  rw [pyInt_eq_floor hq]
  exact Int.floor_nonneg.mpr hq

theorem foldl_updatePair_eq_spec (perf : ℚ) (hperf : 0 ≤ perf) :
    ∀ (effs : List (String × Int)), (∀ e ∈ effs, 0 ≤ e.2) →
      ∀ m, effs.foldl (updatePair perf) m = effs.foldl (specUpdatePair perf) m := by
  intro effs
  induction effs with
  | nil => intro _ m; rfl
  | cons e es ih =>
      intro he m
      rw [List.foldl_cons, List.foldl_cons]
      have hstep : updatePair perf m e = specUpdatePair perf m e := by
        unfold updatePair specUpdatePair
        rw [pyInt_eq_floor]
        exact mul_nonneg (Int.cast_nonneg.mpr (he e (List.mem_cons_self e es))) hperf
      rw [hstep]
      exact ih (fun x hx => he x (List.mem_cons_of_mem _ hx)) _

theorem applyPerfs_eq_spec (acts : List Activity)
    (heff : ∀ a ∈ acts, ∀ e ∈ a.effectiveness, 0 ≤ e.2) :
    ∀ (perfs : List ActivityPerformance), (∀ p ∈ perfs, 0 ≤ p.performance) →
      ∀ m, applyPerfs acts m perfs = specApplyPerfs acts m perfs := by
  intro perfs
  induction perfs with
  | nil => intro _ m; rfl
  | cons p ps ih =>
      intro hp m
      rw [applyPerfs, specApplyPerfs]
      cases hfind : acts.find? (fun a => a.id == p.activity_id) with
      | none => rfl
      | some a =>
          have ha : a ∈ acts := List.mem_of_find?_eq_some hfind
          dsimp only
          rw [foldl_updatePair_eq_spec p.performance
            (hp p (List.mem_cons_self p ps)) a.effectiveness (heff a ha) m]
          exact ih (fun x hx => hp x (List.mem_cons_of_mem _ hx)) _

/-- C5: for performance scores in the unit interval and nonnegative
effectiveness entries, record_sprint updates the mastery of every
(activity, lesson) pair of the active sprint exactly by the spec formula
mastery[lesson] = min(100, mastery[lesson] + floor(effectiveness *
performance)) applied pairwise, appends exactly one SprintLog carrying the
sprint id, activity ids, performances and the post-sprint mastery snapshot,
and advances next_sprint_id by one. -/
theorem C5_record_sprint_matches_spec (lm : LearnerModel)
    (perfs : List ActivityPerformance) (acts : List Activity)
    (lm' : LearnerModel)
    (hp : ∀ p ∈ perfs, 0 ≤ p.performance ∧ p.performance ≤ 1)
    (heff : ∀ a ∈ acts, ∀ e ∈ a.effectiveness, 0 ≤ e.2)
    (h : record_sprint lm perfs acts = some lm') :
    specApplyPerfs acts lm.current_mastery perfs = some lm'.current_mastery ∧
    lm'.sprint_history = lm.sprint_history ++
      [{ sprint_id := lm.next_sprint_id,
         activities := perfs.map ActivityPerformance.activity_id,
         performances := perfs.map (fun p => (p.activity_id, p.performance)),
         mastery_after := lm'.current_mastery }] ∧
    lm'.next_sprint_id = lm.next_sprint_id + 1 := by
  unfold record_sprint at h
  cases happ : applyPerfs acts lm.current_mastery perfs with
  | none => rw [happ] at h; simp at h
  | some m =>
      rw [happ] at h
      simp only [Option.map_some'] at h
      have hlm := Option.some.inj h
      subst hlm
      refine ⟨?_, rfl, rfl⟩
      rw [← applyPerfs_eq_spec acts heff perfs (fun p hp' => (hp p hp').1)
        lm.current_mastery, happ]

/-- C5 witness: the record_sprint theorem applied to a fresh learner, one
activity of effectiveness 60 on L1, and a performance of one half; the
mastery lands on floor(60 * 1/2) = 30. -/
theorem C5_witness :
    specApplyPerfs [actA1] lmFix.current_mastery [perfFix] =
      some lmAfterFix.current_mastery ∧
    lmAfterFix.sprint_history = lmFix.sprint_history ++
      [{ sprint_id := lmFix.next_sprint_id
         activities := [perfFix].map ActivityPerformance.activity_id
         performances := [perfFix].map (fun p => (p.activity_id, p.performance))
         mastery_after := lmAfterFix.current_mastery }] ∧
    lmAfterFix.next_sprint_id = lmFix.next_sprint_id + 1 :=
  C5_record_sprint_matches_spec lmFix [perfFix] [actA1] lmAfterFix
    (by intro p hp
        simp only [List.mem_singleton] at hp
        subst hp
        norm_num [perfFix])
    (by decide)
    (by simp [record_sprint, applyPerfs, updatePair, dictGet, dictSet, lmFix,
          perfFix, actA1, lmAfterFix, logFix, LearnerModel.init, List.find?]
        norm_num [pyInt])

theorem foldl_updatePair_props (perf : ℚ) (hperf : 0 ≤ perf) :
    ∀ (effs : List (String × Int)), (∀ e ∈ effs, 0 ≤ e.2) →
      ∀ m, (∀ l, 0 ≤ dictGet m l ∧ dictGet m l ≤ 100) →
        (∀ l, 0 ≤ dictGet (effs.foldl (updatePair perf) m) l ∧
          dictGet (effs.foldl (updatePair perf) m) l ≤ 100) ∧
        (∀ l, dictGet m l ≤ dictGet (effs.foldl (updatePair perf) m) l) ∧
        (∀ l, effs.lookup l = none →
          dictGet (effs.foldl (updatePair perf) m) l = dictGet m l) := by
  intro effs
  induction effs with
  | nil => intro _ m hm; exact ⟨hm, fun l => le_refl _, fun l _ => rfl⟩
  | cons e es ih =>
      intro he m hm
      obtain ⟨k, w⟩ := e
      have hw : (0 : Int) ≤ w := he (k, w) (List.mem_cons_self _ _)
      have hg : 0 ≤ pyInt ((w : ℚ) * perf) :=
        pyInt_nonneg (mul_nonneg (Int.cast_nonneg.mpr hw) hperf)
      rw [List.foldl_cons]
      have hb1 : ∀ l, 0 ≤ dictGet (updatePair perf m (k, w)) l ∧
          dictGet (updatePair perf m (k, w)) l ≤ 100 := by
        intro l
        rw [updatePair, dictGet_dictSet]
        by_cases hl : l = k
        · rw [if_pos hl]
          exact ⟨le_min (by norm_num) (add_nonneg (hm k).1 hg), min_le_left _ _⟩
        · rw [if_neg hl]; exact hm l
      have hmono1 : ∀ l, dictGet m l ≤ dictGet (updatePair perf m (k, w)) l := by
        intro l
        rw [updatePair, dictGet_dictSet]
        by_cases hl : l = k
        · rw [if_pos hl, hl]
          exact le_min (hm k).2 (le_add_of_nonneg_right hg)
        · rw [if_neg hl]
      obtain ⟨hb, hmono, huntouched⟩ :=
        ih (fun x hx => he x (List.mem_cons_of_mem _ hx)) (updatePair perf m (k, w)) hb1
      refine ⟨hb, fun l => le_trans (hmono1 l) (hmono l), ?_⟩
      intro l hlook
      rw [List.lookup_cons] at hlook
      cases hkey : (l == k) with
      | true => rw [hkey] at hlook; simp at hlook
      | false =>
          rw [hkey] at hlook
          rw [huntouched l hlook, updatePair, dictGet_dictSet,
            if_neg (beq_eq_false_iff_ne.mp hkey)]

theorem applyPerfs_props (acts : List Activity)
    (heff : ∀ a ∈ acts, ∀ e ∈ a.effectiveness, 0 ≤ e.2) :
    ∀ (perfs : List ActivityPerformance), (∀ p ∈ perfs, 0 ≤ p.performance) →
      ∀ m m', (∀ l, 0 ≤ dictGet m l ∧ dictGet m l ≤ 100) →
        applyPerfs acts m perfs = some m' →
        (∀ l, 0 ≤ dictGet m' l ∧ dictGet m' l ≤ 100) ∧
        (∀ l, dictGet m l ≤ dictGet m' l) ∧
        (∀ l, (∀ p ∈ perfs, ∀ a,
            acts.find? (fun x => x.id == p.activity_id) = some a →
            a.effectiveness.lookup l = none) →
          dictGet m' l = dictGet m l) := by
  intro perfs
  induction perfs with
  | nil =>
      intro _ m m' hm h
      obtain rfl : m = m' := Option.some.inj h
      exact ⟨hm, fun l => le_refl _, fun l _ => rfl⟩
  | cons p ps ih =>
      intro hp m m' hm h
      rw [applyPerfs] at h
      cases hfind : acts.find? (fun a => a.id == p.activity_id) with
      | none => rw [hfind] at h; simp at h
      | some a =>
          rw [hfind] at h
          dsimp only at h
          have ha : a ∈ acts := List.mem_of_find?_eq_some hfind
          obtain ⟨hb1, hmono1, hun1⟩ :=
            foldl_updatePair_props p.performance (hp p (List.mem_cons_self p ps))
              a.effectiveness (heff a ha) m hm
          obtain ⟨hb, hmono, hun⟩ :=
            ih (fun x hx => hp x (List.mem_cons_of_mem _ hx)) _ m' hb1 h
          refine ⟨hb, fun l => le_trans (hmono1 l) (hmono l), ?_⟩
          intro l hl
          rw [hun l (fun q hq b hb' => hl q (List.mem_cons_of_mem _ hq) b hb'),
            hun1 l (hl p (List.mem_cons_self p ps) a hfind)]

/-- C10: record_sprint preserves the mastery invariant: starting from a
state with every mastery in the range 0 to 100, with unit-interval
performance scores and nonnegative effectiveness entries, every resulting
mastery value stays in the range 0 to 100, no mastery decreases, and any
lesson not covered by the effectiveness of any performed activity keeps its
exact previous value. -/
theorem C10_record_sprint_invariants (lm : LearnerModel)
    (perfs : List ActivityPerformance) (acts : List Activity)
    (lm' : LearnerModel)
    (hm : ∀ l, 0 ≤ dictGet lm.current_mastery l ∧ dictGet lm.current_mastery l ≤ 100)
    (hp : ∀ p ∈ perfs, 0 ≤ p.performance ∧ p.performance ≤ 1)
    (heff : ∀ a ∈ acts, ∀ e ∈ a.effectiveness, 0 ≤ e.2)
    (h : record_sprint lm perfs acts = some lm') :
    (∀ l, 0 ≤ dictGet lm'.current_mastery l ∧ dictGet lm'.current_mastery l ≤ 100) ∧
    (∀ l, dictGet lm.current_mastery l ≤ dictGet lm'.current_mastery l) ∧
    (∀ l, (∀ p ∈ perfs, ∀ a,
        acts.find? (fun x => x.id == p.activity_id) = some a →
        a.effectiveness.lookup l = none) →
      dictGet lm'.current_mastery l = dictGet lm.current_mastery l) := by
  unfold record_sprint at h
  cases happ : applyPerfs acts lm.current_mastery perfs with
  | none => rw [happ] at h; simp at h
  | some m =>
      rw [happ] at h
      simp only [Option.map_some'] at h
      have hlm := Option.some.inj h
      subst hlm
      exact applyPerfs_props acts heff perfs (fun p hp' => (hp p hp').1)
        lm.current_mastery m hm happ

/-- C10 witness: the invariant theorem applied to the fresh-learner
fixture. -/
theorem C10_witness :
    (∀ l, 0 ≤ dictGet lmAfterFix.current_mastery l ∧
      dictGet lmAfterFix.current_mastery l ≤ 100) ∧
    (∀ l, dictGet lmFix.current_mastery l ≤ dictGet lmAfterFix.current_mastery l) ∧
    (∀ l, (∀ p ∈ [perfFix], ∀ a,
        [actA1].find? (fun x => x.id == p.activity_id) = some a →
        a.effectiveness.lookup l = none) →
      dictGet lmAfterFix.current_mastery l = dictGet lmFix.current_mastery l) :=
  C10_record_sprint_invariants lmFix [perfFix] [actA1] lmAfterFix
    (by intro l
        simp [lmFix, LearnerModel.init, dictGet])
    (by intro p hp
        simp only [List.mem_singleton] at hp
        subst hp
        norm_num [perfFix])
    (by decide)
    (by simp [record_sprint, applyPerfs, updatePair, dictGet, dictSet, lmFix,
          perfFix, actA1, lmAfterFix, logFix, LearnerModel.init, List.find?]
        norm_num [pyInt])

namespace SprintBuilder

theorem chunkAux_sum_length (size : Nat) (hs : size ≠ 0) :
    ∀ (fuel : Nat) (l : List Activity), l.length ≤ fuel →
      ((chunkAux size fuel l).map List.length).sum = l.length := by
  have h1 : 1 ≤ size := Nat.one_le_iff_ne_zero.mpr hs
  intro fuel
  induction fuel with
  | zero =>
      intro l hl
      cases l with
      | nil => rfl
      | cons a rest => simp at hl
  | succ fuel ih =>
      intro l hl
      cases l with
      | nil => rfl
      | cons a rest =>
          rw [chunkAux]
          simp only [List.map_cons, List.sum_cons]
          have hd : ((a :: rest).drop size).length ≤ fuel := by
            simp only [List.length_drop, List.length_cons]
            simp only [List.length_cons] at hl
            omega
          rw [ih _ hd]
          simp only [List.length_take, List.length_drop, List.length_cons]
          omega

theorem chunkAux_length_le (size : Nat) :
    ∀ (fuel : Nat) (l : List Activity) (c : List Activity),
      c ∈ chunkAux size fuel l → c.length ≤ size := by
  intro fuel
  induction fuel with
  | zero =>
      intro l c hc
      cases l with
      | nil => simp [chunkAux] at hc
      | cons a rest => simp [chunkAux] at hc
  | succ fuel ih =>
      intro l c hc
      cases l with
      | nil => simp [chunkAux] at hc
      | cons a rest =>
          rw [chunkAux] at hc
          rcases List.mem_cons.mp hc with h | h
          · rw [h]
            simp [List.length_take]
          · exact ih _ c h

theorem chunkList_sum_length {size : Nat} (hs : size ≠ 0) (l : List Activity) :
    ((chunkList size l).map List.length).sum = l.length := by
  rw [chunkList, if_neg hs]
  exact chunkAux_sum_length size hs l.length l (le_refl _)

theorem chunkList_length_le (size : Nat) (l : List Activity)
    (c : List Activity) (hc : c ∈ chunkList size l) : c.length ≤ size := by
  rw [chunkList] at hc
  by_cases hs : size = 0
  · rw [if_pos hs] at hc; simp at hc
  · rw [if_neg hs] at hc
    exact chunkAux_length_le size l.length l c hc

theorem sum_map_length_set :
    ∀ (cs : List (List Activity)) (i : Nat), i < cs.length → ∀ (a : Activity),
      ((cs.set i (cs.getD i [] ++ [a])).map List.length).sum
        = (cs.map List.length).sum + 1 := by
  intro cs
  induction cs with
  | nil => intro i hi a; simp at hi
  | cons c rest ih =>
      intro i hi a
      cases i with
      | zero =>
          simp only [List.getD_cons_zero, List.set_cons_zero, List.map_cons,
            List.sum_cons, List.length_append, List.length_singleton]
          omega
      | succ i =>
          simp only [List.getD_cons_succ, List.set_cons_succ, List.map_cons,
            List.sum_cons]
          rw [ih i (by simpa using Nat.lt_of_succ_lt_succ hi) a]
          omega

theorem scatter_sum :
    ∀ (pairs : List (Activity × Nat)) (cs : List (List Activity)),
      (∀ pr ∈ pairs, pr.2 < cs.length) →
      ((pairs.foldl (fun cs al => cs.set al.2 (cs.getD al.2 [] ++ [al.1])) cs).map
        List.length).sum = (cs.map List.length).sum + pairs.length := by
  intro pairs
  induction pairs with
  | nil => intro cs _; simp
  | cons pr prs ih =>
      intro cs hpr
      rw [List.foldl_cons]
      have hlt : pr.2 < cs.length := hpr pr (List.mem_cons_self pr prs)
      have hlen : (cs.set pr.2 (cs.getD pr.2 [] ++ [pr.1])).length = cs.length :=
        List.length_set cs pr.2 _
      rw [ih _ (fun q hq => hlen ▸ hpr q (List.mem_cons_of_mem _ hq)),
        sum_map_length_set cs pr.2 hlt pr.1]
      simp only [List.length_cons]
      omega

theorem cluster_activities_sum (labeler : Labeler) (b : SprintBuilder)
    (hlab : ∀ vecs k, (labeler vecs k).length = vecs.length)
    (g : List Activity) (out : List (List Activity))
    (h : cluster_activities labeler b g = some out) :
    (out.map List.length).sum = g.length := by
  unfold cluster_activities at h
  by_cases hle : g.length ≤ b.max_sprint_size
  · rw [if_pos hle] at h
    obtain rfl := Option.some.inj h
    simp
  · rw [if_neg hle] at h
    dsimp only at h
    split at h
    · next hall =>
        obtain rfl := Option.some.inj h
        have hlablen : (labeler (g.map (b.encode_activity))
            (clusterK g.length b.max_sprint_size)).length = g.length := by
          rw [hlab, List.length_map]
        rw [scatter_sum]
        · simp [List.length_zip, hlablen]
        · intro pr hpr
          have hmem := (List.of_mem_zip hpr).2
          simp only [List.length_replicate]
          have := List.all_eq_true.mp hall pr.2 hmem
          simpa using this
    · exact absurd h (by simp)

theorem groupSprints_sum (labeler : Labeler) (b : SprintBuilder)
    (hs : b.max_sprint_size ≠ 0)
    (hlab : ∀ vecs k, (labeler vecs k).length = vecs.length)
    (g : List Activity) (out : List (List Activity))
    (h : groupSprints labeler b g = some out) :
    (out.map List.length).sum = g.length := by
  unfold groupSprints at h
  split at h
  · exact cluster_activities_sum labeler b hlab g out h
  · obtain rfl := Option.some.inj h
    exact chunkList_sum_length hs g

theorem buildLoop_sum (labeler : Labeler) (b : SprintBuilder)
    (hs : b.max_sprint_size ≠ 0)
    (hlab : ∀ vecs k, (labeler vecs k).length = vecs.length) :
    ∀ (groups : List (List Activity)) (sprints : List (List Activity)),
      buildLoop labeler b groups = some sprints →
      (sprints.map List.length).sum = (groups.map List.length).sum := by
  intro groups
  induction groups with
  | nil =>
      intro sprints h
      obtain rfl := Option.some.inj h
      rfl
  | cons g gs ih =>
      intro sprints h
      rw [buildLoop] at h
      cases hfirst : groupSprints labeler b g with
      | none => rw [hfirst] at h; simp at h
      | some first =>
          rw [hfirst] at h
          cases hrest : buildLoop labeler b gs with
          | none => rw [hrest] at h; simp at h
          | some rest =>
              rw [hrest] at h
              simp only [Option.bind_some, Option.some_bind, Option.pure_def] at h
              obtain rfl := Option.some.inj h
              rw [List.map_append, List.sum_append, List.map_cons, List.sum_cons,
                groupSprints_sum labeler b hs hlab g first hfirst, ih rest hrest]

theorem sum_map_add (f g : Nat → Nat) :
    ∀ (ds : List Nat), (ds.map (fun d => f d + g d)).sum
      = (ds.map f).sum + (ds.map g).sum := by
  intro ds
  induction ds with
  | nil => rfl
  | cons d ds ih => simp only [List.map_cons, List.sum_cons, ih]; omega

theorem sum_map_indicator_zero (d0 : Nat) :
    ∀ (ds : List Nat), d0 ∉ ds →
      (ds.map (fun d => if d0 == d then 1 else 0)).sum = 0 := by
  intro ds
  induction ds with
  | nil => intro _; rfl
  | cons d ds ih =>
      intro hd0
      have hne : d0 ≠ d := fun h => hd0 (h ▸ List.mem_cons_self d ds)
      simp only [List.map_cons, List.sum_cons, beq_false_of_ne hne,
        if_neg Bool.false_ne_true, ih (fun h => hd0 (List.mem_cons_of_mem d h))]

theorem sum_map_indicator_one (d0 : Nat) :
    ∀ (ds : List Nat), ds.Nodup → d0 ∈ ds →
      (ds.map (fun d => if d0 == d then 1 else 0)).sum = 1 := by
  intro ds
  induction ds with
  | nil => intro _ h; simp at h
  | cons d ds ih =>
      intro hnd hd0
      rcases List.mem_cons.mp hd0 with h | h
      · subst h
        have hnot : d0 ∉ ds := (List.nodup_cons.mp hnd).1
        rw [List.map_cons, List.sum_cons, sum_map_indicator_zero d0 ds hnot]
        simp
      · have hne : d0 ≠ d := by
          intro hcontra
          exact (List.nodup_cons.mp hnd).1 (hcontra ▸ h)
        rw [List.map_cons, List.sum_cons, ih (List.nodup_cons.mp hnd).2 h]
        simp [beq_false_of_ne hne]

theorem sum_filter_length (ds : List Nat) (hnd : ds.Nodup) :
    ∀ (xs : List (Activity × Nat)), (∀ x ∈ xs, x.2 ∈ ds) →
      (ds.map (fun d => (xs.filter (fun ad => ad.2 == d)).length)).sum
        = xs.length := by
  intro xs
  induction xs with
  | nil =>
      intro _
      simp [List.filter_nil]
  | cons x xs ih =>
      intro hx
      have hxd : x.2 ∈ ds := hx x (List.mem_cons_self x xs)
      have hpoint : ∀ d : Nat, ((x :: xs).filter (fun ad => ad.2 == d)).length
          = (if x.2 == d then 1 else 0) + (xs.filter (fun ad => ad.2 == d)).length := by
        intro d
        rw [List.filter_cons]
        cases h : x.2 == d with
        | false => simp [h]
        | true => simp [h]; omega
      simp only [hpoint]
      rw [sum_map_add (fun d => if x.2 == d then 1 else 0)
        (fun d => (xs.filter (fun ad => ad.2 == d)).length) ds,
        sum_map_indicator_one x.2 ds hnd hxd,
        ih (fun q hq => hx q (List.mem_cons_of_mem _ hq))]
      simp [Nat.add_comm]

theorem foldl_max_init_le : ∀ (l : List Nat) (acc : Nat), acc ≤ l.foldl max acc := by
  intro l
  induction l with
  | nil => intro acc; exact le_refl _
  | cons e es ih =>
      intro acc
      rw [List.foldl_cons]
      exact le_trans (le_max_left acc e) (ih (max acc e))

theorem le_foldl_max : ∀ (l : List Nat) (acc d : Nat), d ∈ l → d ≤ l.foldl max acc := by
  intro l
  induction l with
  | nil => intro acc d h; simp at h
  | cons e es ih =>
      intro acc d h
      rw [List.foldl_cons]
      rcases List.mem_cons.mp h with h | h
      · subst h
        exact le_trans (le_max_right acc d) (foldl_max_init_le es (max acc d))
      · exact ih (max acc e) d h

theorem sortedDepths_nodup (ds : List Nat) : (sortedDepths ds).Nodup :=
  (List.nodup_range _).filter _

theorem mem_sortedDepths {ds : List Nat} {d : Nat} (hd : d ∈ ds) :
    d ∈ sortedDepths ds := by
  rw [sortedDepths]
  apply List.mem_filter.mpr
  refine ⟨List.mem_range.mpr ?_, ?_⟩
  · exact Nat.lt_succ_of_le (le_foldl_max ds 0 d hd)
  · simpa [List.contains] using List.elem_iff.mpr hd

theorem depthsOf_length (levels : List (String × Nat)) :
    ∀ (l : List Activity) (res : List (Activity × Nat)),
      depthsOf levels l = some res → res.length = l.length := by
  intro l
  induction l with
  | nil =>
      intro res h
      obtain rfl := Option.some.inj h
      rfl
  | cons a rest ih =>
      intro res h
      rw [depthsOf] at h
      cases hdep : activityDepth levels a with
      | none => rw [hdep] at h; simp at h
      | some d =>
          rw [hdep] at h
          cases hres : depthsOf levels rest with
          | none => rw [hres] at h; simp at h
          | some tail =>
              rw [hres] at h
              simp only [Option.map_some'] at h
              obtain rfl := Option.some.inj h
              simp [ih tail hres]

end SprintBuilder

/-- C6: for any builder configuration with a positive max_sprint_size and a
clustering backend returning one label per input vector, every successful
build_sprints output has sprint sizes summing exactly to the number of input
activities with non-empty effectiveness: no such activity is lost and none
is duplicated. -/
theorem C6_sprint_sizes_sum_to_inputs (labeler : Labeler) (b : SprintBuilder)
    (hs : b.max_sprint_size ≠ 0)
    (hlab : ∀ vecs k, (labeler vecs k).length = vecs.length)
    (sprints : List (List Activity))
    (h : SprintBuilder.build_sprints labeler b = some sprints) :
    (sprints.map List.length).sum =
      (b.activities.filter (fun a => !a.effectiveness.isEmpty)).length := by
  unfold SprintBuilder.build_sprints at h
  dsimp only at h
  cases hlev : SprintBuilder.depthsOf b.lesson_levels
      (b.activities.filter (fun a => !a.effectiveness.isEmpty)) with
  | none => rw [hlev] at h; simp at h
  | some leveled =>
      rw [hlev] at h
      have h' : SprintBuilder.buildLoop labeler b
          ((SprintBuilder.sortedDepths (leveled.map Prod.snd)).map
            (fun d => (leveled.filter (fun ad => ad.2 == d)).map Prod.fst))
          = some sprints := h
      rw [SprintBuilder.buildLoop_sum labeler b hs hlab _ sprints h',
        List.map_map]
      have hcomp : (List.length ∘ fun d =>
          (leveled.filter (fun ad => ad.2 == d)).map Prod.fst)
          = fun d => (leveled.filter (fun ad => ad.2 == d)).length := by
        funext d
        simp [List.length_map]
      rw [hcomp,
        SprintBuilder.sum_filter_length _
          (SprintBuilder.sortedDepths_nodup (leveled.map Prod.snd)) leveled
          (fun x hx => SprintBuilder.mem_sortedDepths
            (List.mem_map.mpr ⟨x, hx, rfl⟩)),
        SprintBuilder.depthsOf_length _ _ leveled hlev]

/-- C6 witness: the counting theorem applied to the five-activity fixture
with clustering enabled and the everything-in-cluster-0 backend. -/
theorem C6_witness :
    ∃ sprints, SprintBuilder.build_sprints labeler0 sprintB6 = some sprints ∧
      (sprints.map List.length).sum =
        (sprintB6.activities.filter (fun a => !a.effectiveness.isEmpty)).length := by
  refine ⟨[[actB "B1", actB "B2", actB "B3", actB "B4", actB "B5"], []], ?_, ?_⟩
  · decide
  · exact C6_sprint_sizes_sum_to_inputs labeler0 sprintB6 (by decide)
      (fun vecs k => List.length_map vecs _) _ (by decide)

theorem groupSprints_of_no_clustering (labeler : Labeler) (b : SprintBuilder)
    (hcl : b.use_clustering = false) (g : List Activity)
    (out : List (List Activity))
    (h : SprintBuilder.groupSprints labeler b g = some out) :
    out = SprintBuilder.chunkList b.max_sprint_size g := by
  unfold SprintBuilder.groupSprints at h
  rw [if_neg (fun hand => by rw [hcl] at hand; exact Bool.false_ne_true hand.1)] at h
  exact (Option.some.inj h).symm

theorem buildLoop_bound (labeler : Labeler) (b : SprintBuilder)
    (hcl : b.use_clustering = false) :
    ∀ (groups : List (List Activity)) (sprints : List (List Activity)),
      SprintBuilder.buildLoop labeler b groups = some sprints →
      ∀ s ∈ sprints, s.length ≤ b.max_sprint_size := by
  intro groups
  induction groups with
  | nil =>
      intro sprints h
      obtain rfl := Option.some.inj h
      intro s hs
      simp at hs
  | cons g gs ih =>
      intro sprints h
      rw [SprintBuilder.buildLoop] at h
      cases hfirst : SprintBuilder.groupSprints labeler b g with
      | none => rw [hfirst] at h; simp at h
      | some first =>
          rw [hfirst] at h
          cases hrest : SprintBuilder.buildLoop labeler b gs with
          | none => rw [hrest] at h; simp at h
          | some rest =>
              rw [hrest] at h
              simp only [Option.bind_some, Option.some_bind, Option.pure_def] at h
              obtain rfl := Option.some.inj h
              intro s hs
              rcases List.mem_append.mp hs with hmem | hmem
              · rw [groupSprints_of_no_clustering labeler b hcl g first hfirst] at hmem
                exact SprintBuilder.chunkList_length_le b.max_sprint_size g s hmem
              · exact ih rest hrest s hmem

/-- C7: with clustering disabled every sprint built by build_sprints has at
most max_sprint_size activities, and the concrete scenario of five
same-depth activities with max_sprint_size 2 yields sprints of sizes 2, 2, 1
in input order. -/
theorem C7_chunking_bound_and_scenario :
    (∀ (labeler : Labeler) (b : SprintBuilder) (sprints : List (List Activity)),
      b.use_clustering = false →
      SprintBuilder.build_sprints labeler b = some sprints →
      ∀ s ∈ sprints, s.length ≤ b.max_sprint_size) ∧
    SprintBuilder.build_sprints (fun _ _ => []) sprintB7 =
      some [[actB "B1", actB "B2"], [actB "B3", actB "B4"], [actB "B5"]] := by
  constructor
  · intro labeler b sprints hcl h
    unfold SprintBuilder.build_sprints at h
    dsimp only at h
    cases hlev : SprintBuilder.depthsOf b.lesson_levels
        (b.activities.filter (fun a => !a.effectiveness.isEmpty)) with
    | none => rw [hlev] at h; simp at h
    | some leveled =>
        rw [hlev] at h
        have h' : SprintBuilder.buildLoop labeler b
            ((SprintBuilder.sortedDepths (leveled.map Prod.snd)).map
              (fun d => (leveled.filter (fun ad => ad.2 == d)).map Prod.fst))
            = some sprints := h
        exact buildLoop_bound labeler b hcl _ sprints h'
  · decide

/-- C7 witness: the bound applied to the scenario output itself. -/
theorem C7_witness :
    ∀ s ∈ [[actB "B1", actB "B2"], [actB "B3", actB "B4"], [actB "B5"]],
      s.length ≤ sprintB7.max_sprint_size :=
  C7_chunking_bound_and_scenario.1 (fun _ _ => []) sprintB7
    [[actB "B1", actB "B2"], [actB "B3", actB "B4"], [actB "B5"]]
    (by decide) (by decide)

theorem lookup_append_some {β : Type} {l1 l2 : List (String × β)}
    {k : String} {v : β} (h : l1.lookup k = some v) :
    (l1 ++ l2).lookup k = some v := by
  induction l1 with
  | nil => simp [List.lookup] at h
  | cons e es ih =>
      obtain ⟨a, b⟩ := e
      rw [List.cons_append, List.lookup_cons]
      rw [List.lookup_cons] at h
      cases hk : k == a with
      | true => simpa [hk] using h
      | false => simp only [hk] at h ⊢; exact ih h

theorem lookup_map_pair_some {lv : List String} {x : String} {c : Nat}
    (hx : x ∈ lv) :
    (lv.map (fun n => (n, c))).lookup x = some c := by
  induction lv with
  | nil => simp at hx
  | cons y ys ih =>
      simp only [List.map_cons, List.lookup_cons]
      cases hk : x == y with
      | true => rfl
      | false =>
          rcases List.mem_cons.mp hx with h | h
          · rw [h] at hk; simp at hk
          · exact ih h

theorem graph_nodes_subset_addNode (G : Graph) (v x : String)
    (hx : x ∈ G.nodes) : x ∈ (G.addNode v).nodes := by
  rw [Graph.addNode]
  by_cases hv : v ∈ G.nodes
  · rw [if_pos hv]; exact hx
  · rw [if_neg hv]; exact List.mem_append_left _ hx

theorem mem_addNode_self (G : Graph) (v : String) : v ∈ (G.addNode v).nodes := by
  rw [Graph.addNode]
  by_cases hv : v ∈ G.nodes
  · rw [if_pos hv]; exact hv
  · rw [if_neg hv]; exact List.mem_append_right _ (List.mem_singleton.mpr rfl)

/-- Well-formedness: every edge of a graph built by repeated addNode and
addEdge has both endpoints among the nodes. -/
def GraphWF (G : Graph) : Prop :=
  ∀ e ∈ G.edges, e.1 ∈ G.nodes ∧ e.2 ∈ G.nodes

theorem addNode_wf (G : Graph) (v : String) (h : GraphWF G) :
    GraphWF (G.addNode v) := by
  intro e he
  have hedges : (G.addNode v).edges = G.edges := by
    rw [Graph.addNode]
    by_cases hv : v ∈ G.nodes
    · rw [if_pos hv]
    · rw [if_neg hv]
  rw [hedges] at he
  obtain ⟨h1, h2⟩ := h e he
  exact ⟨graph_nodes_subset_addNode G v _ h1, graph_nodes_subset_addNode G v _ h2⟩

theorem addEdge_wf (G : Graph) (u v : String) (h : GraphWF G) :
    GraphWF (G.addEdge u v) := by
  have h1 : GraphWF ((G.addNode u).addNode v) := addNode_wf _ v (addNode_wf G u h)
  have hu : u ∈ ((G.addNode u).addNode v).nodes :=
    graph_nodes_subset_addNode _ v u (mem_addNode_self G u)
  have hv : v ∈ ((G.addNode u).addNode v).nodes := mem_addNode_self _ v
  rw [Graph.addEdge]
  by_cases he : (u, v) ∈ ((G.addNode u).addNode v).edges
  · rw [if_pos he]; exact h1
  · rw [if_neg he]
    intro e hmem
    rcases List.mem_append.mp hmem with hmem | hmem
    · exact h1 e hmem
    · rw [List.mem_singleton.mp hmem]
      exact ⟨hu, hv⟩

theorem graph_foldl_wf {α : Type} (f : Graph → α → Graph)
    (hf : ∀ G x, GraphWF G → GraphWF (f G x)) :
    ∀ (l : List α) (G : Graph), GraphWF G → GraphWF (l.foldl f G) := by
  intro l
  induction l with
  | nil => intro G h; exact h
  | cons x xs ih => intro G h; exact ih (f G x) (hf G x h)

theorem build_lesson_graph_wf (lessons : List Lesson) :
    GraphWF (build_lesson_graph lessons) := by
  rw [build_lesson_graph]
  apply graph_foldl_wf
  · intro G lesson hG
    exact graph_foldl_wf (fun G p => G.addEdge p lesson.id)
      (fun G p h => addEdge_wf G p lesson.id h) lesson.prerequisites
      (G.addNode lesson.id) (addNode_wf G lesson.id hG)
  · intro e he
    simp at he

theorem removeNodes_wf (G : Graph) (vs : List String) (h : GraphWF G) :
    GraphWF (removeNodes G vs) := by
  intro e he
  rw [removeNodes, List.mem_filter] at he
  obtain ⟨hmem, hcond⟩ := he
  simp only [decide_eq_true_eq] at hcond
  obtain ⟨h1, h2⟩ := h e hmem
  constructor
  · rw [removeNodes]
    exact List.mem_filter.mpr ⟨h1, by simpa using hcond.1⟩
  · rw [removeNodes]
    exact List.mem_filter.mpr ⟨h2, by simpa using hcond.2⟩

theorem exists_min_rank (r : String → Nat) :
    ∀ (S : List String), S ≠ [] → ∃ n ∈ S, ∀ m ∈ S, r n ≤ r m := by
  intro S
  induction S with
  | nil => intro h; exact absurd rfl h
  | cons a S ih =>
      intro _
      cases S with
      | nil =>
          exact ⟨a, List.mem_singleton.mpr rfl, by
            intro m hm; rw [List.mem_singleton.mp hm]⟩
      | cons b T =>
          obtain ⟨n, hn, hmin⟩ := ih (by simp)
          by_cases hle : r a ≤ r n
          · refine ⟨a, List.mem_cons_self _ _, ?_⟩
            intro m hm
            rcases List.mem_cons.mp hm with h | h
            · rw [h]
            · exact le_trans hle (hmin m h)
          · refine ⟨n, List.mem_cons_of_mem a hn, ?_⟩
            intro m hm
            rcases List.mem_cons.mp hm with h | h
            · rw [h]; omega
            · exact hmin m h

/-- On an acyclic input every round of the peeling loop finds a
zero-in-degree node, so every remaining node eventually receives a level. -/
theorem levelsAux_complete (r : String → Nat) (G0 : Graph)
    (hr : ∀ e ∈ G0.edges, r e.1 < r e.2) :
    ∀ (fuel : Nat) (G : Graph) (c : Nat),
      G.nodes.length ≤ fuel →
      GraphWF G →
      (∀ e ∈ G.edges, e ∈ G0.edges) →
      ∀ x ∈ G.nodes, ∃ k, (levelsAux fuel G c).lookup x = some k := by
  intro fuel
  induction fuel with
  | zero =>
      intro G c hlen _ _ x hx
      rw [List.length_eq_zero.mp (Nat.le_zero.mp hlen)] at hx
      simp at hx
  | succ fuel ih =>
      intro G c hlen hwf hsub x hx
      rw [levelsAux]
      have hne : G.nodes ≠ [] := fun h => by rw [h] at hx; simp at hx
      obtain ⟨n, hnS, hnmin⟩ := exists_min_rank r G.nodes hne
      have hnz : n ∈ zeroInDegree G := by
        rw [zeroInDegree]
        apply List.mem_filter.mpr
        refine ⟨hnS, ?_⟩
        simp only [List.all_eq_true, decide_eq_true_eq]
        intro e he heq
        have hlt : r e.1 < r e.2 := hr e (hsub e he)
        have hle : r n ≤ r e.1 := hnmin e.1 (hwf e he).1
        rw [heq] at hlt
        omega
      cases hG : zeroInDegree G with
      | nil => rw [hG] at hnz; simp at hnz
      | cons y ys =>
          by_cases hxlv : x ∈ (y :: ys)
          · refine ⟨c, ?_⟩
            dsimp only
            exact lookup_append_some (lookup_map_pair_some hxlv)
          · have hxrem : x ∈ (removeNodes G (y :: ys)).nodes := by
              rw [removeNodes]
              exact List.mem_filter.mpr ⟨hx, by simpa using hxlv⟩
            have hylen : (removeNodes G (y :: ys)).nodes.length < G.nodes.length :=
              removeNodes_length_lt G (y :: ys) y
                (zeroInDegree_subset (hG ▸ List.mem_cons_self y ys))
                (List.mem_cons_self y ys)
            obtain ⟨k, hk⟩ := ih (removeNodes G (y :: ys)) (c + 1)
              (by omega) (removeNodes_wf G _ hwf)
              (fun e he => hsub e (List.mem_of_mem_filter he)) x hxrem
            refine ⟨k, ?_⟩
            dsimp only
            rw [lookup_append_of_none (lookup_map_pair_none hxlv), hk]

/-- Every level assigned by the loop starting at level c is at least c. -/
theorem levelsAux_ge :
    ∀ (fuel : Nat) (G : Graph) (c : Nat) (x : String) (k : Nat),
      (levelsAux fuel G c).lookup x = some k → c ≤ k := by
  intro fuel
  induction fuel with
  | zero => intro G c x k h; simp [levelsAux, List.lookup] at h
  | succ fuel ih =>
      intro G c x k h
      rw [levelsAux] at h
      cases hG : zeroInDegree G with
      | nil => rw [hG] at h; simp [List.lookup] at h
      | cons y ys =>
          rw [hG] at h
          dsimp only at h
          by_cases hxlv : x ∈ (y :: ys)
          · rw [lookup_append_some (lookup_map_pair_some hxlv)] at h
            obtain rfl := Option.some.inj h
            exact le_refl _
          · rw [lookup_append_of_none (lookup_map_pair_none hxlv)] at h
            exact le_trans (Nat.le_succ c) (ih _ (c + 1) x k h)

/-- Along any edge whose two endpoints both receive levels, the source
receives a strictly smaller level than the target. -/
theorem levelsAux_edge_lt :
    ∀ (fuel : Nat) (G : Graph) (c : Nat) (p l : String) (kp kl : Nat),
      (p, l) ∈ G.edges →
      (levelsAux fuel G c).lookup p = some kp →
      (levelsAux fuel G c).lookup l = some kl →
      kp < kl := by
  intro fuel
  induction fuel with
  | zero => intro G c p l kp kl _ hp _; simp [levelsAux, List.lookup] at hp
  | succ fuel ih =>
      intro G c p l kp kl he hp hl
      rw [levelsAux] at hp hl
      cases hG : zeroInDegree G with
      | nil => rw [hG] at hp; simp [List.lookup] at hp
      | cons y ys =>
          rw [hG] at hp hl
          dsimp only at hp hl
          have hllv : l ∉ (y :: ys) := fun hmem =>
            not_mem_zeroInDegree_of_in_edge he (hG ▸ hmem)
          rw [lookup_append_of_none (lookup_map_pair_none hllv)] at hl
          have hkl : c + 1 ≤ kl := levelsAux_ge fuel _ (c + 1) l kl hl
          by_cases hplv : p ∈ (y :: ys)
          · rw [lookup_append_some (lookup_map_pair_some hplv)] at hp
            obtain rfl := Option.some.inj hp
            omega
          · rw [lookup_append_of_none (lookup_map_pair_none hplv)] at hp
            have hesurv : (p, l) ∈ (removeNodes G (y :: ys)).edges := by
              rw [removeNodes]
              apply List.mem_filter.mpr
              refine ⟨he, ?_⟩
              simp only [decide_eq_true_eq]
              exact ⟨by simpa using hplv, by simpa using hllv⟩
            exact ih _ (c + 1) p l kp kl hesurv hp hl

/-- C8: on every acyclic lesson set, the level map computed by the
Kahn-style peeling assigns a level to both endpoints of every prerequisite
edge, with the prerequisite strictly below the dependent lesson. -/
theorem C8_levels_strictly_increase (lessons : List Lesson)
    (hacyc : Acyclic (build_lesson_graph lessons)) :
    ∀ p l, (p, l) ∈ (build_lesson_graph lessons).edges →
      ∃ kp kl,
        (compute_lesson_levels (build_lesson_graph lessons)).lookup p = some kp ∧
        (compute_lesson_levels (build_lesson_graph lessons)).lookup l = some kl ∧
        kp < kl := by
  intro p l he
  obtain ⟨r, hr⟩ := hacyc
  have hwf := build_lesson_graph_wf lessons
  obtain ⟨hp, hl⟩ := hwf (p, l) he
  obtain ⟨kp, hkp⟩ := levelsAux_complete r (build_lesson_graph lessons) hr
    ((build_lesson_graph lessons).nodes.length + 1) (build_lesson_graph lessons)
    0 (by omega) hwf (fun e he => he) p hp
  obtain ⟨kl, hkl⟩ := levelsAux_complete r (build_lesson_graph lessons) hr
    ((build_lesson_graph lessons).nodes.length + 1) (build_lesson_graph lessons)
    0 (by omega) hwf (fun e he => he) l hl
  exact ⟨kp, kl, hkp, hkl,
    levelsAux_edge_lt _ (build_lesson_graph lessons) 0 p l kp kl he hkp hkl⟩

/-- C8 witness: the invariant applied to the two-lesson chain L1 before L2,
with the explicit rank L1 at 0 and everything else at 1. -/
theorem C8_witness :
    ∃ kp kl,
      (compute_lesson_levels (build_lesson_graph [lessonL1, lessonL2])).lookup "L1"
        = some kp ∧
      (compute_lesson_levels (build_lesson_graph [lessonL1, lessonL2])).lookup "L2"
        = some kl ∧
      kp < kl :=
  C8_levels_strictly_increase [lessonL1, lessonL2]
    ⟨fun s => if s = "L1" then 0 else 1, by decide⟩
    "L1" "L2" (by decide)

end LPO
